import Mathlib

/- Verification of the sliding-window range-vector iterator of
   pkg/logql/range_vector.go: a shallow embedding of the iterator state and
   of its operations (newRangeVectorIterator, Next, popBack, load, At),
   together with proofs of the specified properties. -/

set_option maxRecDepth 100000

namespace Logql

/-- Minimum value of a 64-bit signed integer (Go `int64`). -/
def i64min : Int := -(2 ^ 63)

/-- Maximum value of a 64-bit signed integer (Go `int64`). -/
def i64max : Int := 2 ^ 63 - 1

/-- Two's-complement wrap-around of Go `int64` arithmetic: the result of an
    int64 addition or subtraction whose mathematical value is `x`. -/
def wrap64 (x : Int) : Int := (x + 2 ^ 63) % 2 ^ 64 - 2 ^ 63

/-- A labeled sample as delivered by the sample source (`SeriesIterator`).
    Fields follow the Go struct: `Labels` is the series fingerprint string,
    `TimestampNano` the int64 timestamp.  The engine never computes with
    sample values (only caller-supplied aggregators do), so `float64` values
    are modelled by `Int`. -/
structure Sample where
  Labels : String
  TimestampNano : Int
  Value : Int
deriving DecidableEq

/-- `promql.Point`. -/
structure Point where
  T : Int
  V : Int
deriving DecidableEq

/-- `promql.Series`: parsed labels plus the buffered points of one series.
    `Lbls` is the type of parsed label sets (`labels.Labels`), kept abstract
    since the engine treats it opaquely. -/
structure Series (Lbls : Type) where
  Metric : Lbls
  Points : List Point
deriving DecidableEq

/-- One element of the `promql.Vector` returned by `At`. -/
structure OutSample (Lbls : Type) where
  T : Int
  V : Int
  Metric : Lbls
deriving DecidableEq

/-- State of a `rangeVectorIterator` together with its sample source.
    The source is modelled from its contract (peekable pull cursor): a finite
    list of samples plus a cursor `pos`; `Peek()` reads `samples[pos]` without
    consuming, `Next()` advances `pos`, so `pos` is also the number of
    consuming `next()` calls made so far.  The Go maps `window` and `metrics`
    are modelled as association lists in insertion order.  `putCount` counts
    the buffers returned to the `sync.Pool` by `putSeries` (the pool itself is
    observable only through those calls: `Get` may always miss). -/
structure IterState (Lbls : Type) where
  samples : List Sample
  pos : Nat
  selRange : Int
  step : Int
  endT : Int
  current : Int
  window : List (String × Series Lbls)
  metrics : List (String × Lbls)
  putCount : Nat
deriving DecidableEq

variable {Lbls : Type}

/-- `r.iter.Peek()`: non-consuming look at the head sample. -/
def peekSample (st : IterState Lbls) : Option Sample := st.samples.get? st.pos

/-- `r.iter.Next()`: consume the head sample. -/
def consume (st : IterState Lbls) : IterState Lbls := { st with pos := st.pos + 1 }

/-- Association-list lookup mirroring Go map indexing `m[k]`. -/
def lookupFp : List (String × α) → String → Option α
  | [], _ => none
  | (k, v) :: rest, fp => if k = fp then some v else lookupFp rest fp

/-- Append a point to the series stored under key `fp`
    (`series.Points = append(series.Points, p)` through the map entry). -/
def appendPoint (fp : String) (p : Point) :
    List (String × Series Lbls) → List (String × Series Lbls)
  | [] => []
  | (k, s) :: rest =>
    if k = fp then (k, { s with Points := s.Points ++ [p] }) :: rest
    else (k, s) :: appendPoint fp p rest

/-- The inner scan of `popBack`: the `lastPoint`/`remove` bookkeeping drops
    the points before the first one with `T > newStart` (the scan `break`s
    there) and keeps the rest. -/
def trimPoints (newStart : Int) : List Point → List Point
  | [] => []
  | p :: ps => if p.T ≤ newStart then trimPoints newStart ps else p :: ps

/-- `popBack(newStart)`: evict out-of-window points from every entry; an entry
    whose point list becomes empty is deleted from the window and its buffer
    returned to the pool (`putSeries`).  Returns the new window and the number
    of `putSeries` calls made. -/
def popBack (newStart : Int) :
    List (String × Series Lbls) → List (String × Series Lbls) × Nat
  | [] => ([], 0)
  | (fp, s) :: rest =>
    let kept := trimPoints newStart s.Points
    let r := popBack newStart rest
    if kept = [] then (r.1, r.2 + 1)
    else ((fp, { s with Points := kept }) :: r.1, r.2)

/-- `load(start, end)`: pull newly in-range samples from the source.  `parse`
    models `parser.ParseMetric`.  The Go loop has no structural termination
    measure (on a label-parse failure it `continue`s without consuming the
    sample), so the loop is modelled with explicit `fuel`; the returned
    boolean is `true` iff the loop exited normally (source exhausted, or head
    sample beyond `end`) and `false` iff the fuel ran out first. -/
def load (parse : String → Option Lbls) (start endR : Int) :
    Nat → IterState Lbls → IterState Lbls × Bool
  | 0, st => (st, false)
  | fuel + 1, st =>
    match peekSample st with
    | none => (st, true)
    | some sample =>
      if endR < sample.TimestampNano then (st, true)
      else if sample.TimestampNano ≤ start then
        load parse start endR fuel (consume st)
      else
        match lookupFp st.window sample.Labels with
        | some _ =>
          load parse start endR fuel
            (consume { st with
              window := appendPoint sample.Labels
                ⟨sample.TimestampNano, sample.Value⟩ st.window })
        | none =>
          match lookupFp st.metrics sample.Labels with
          | some metric =>
            load parse start endR fuel
              (consume { st with
                window := st.window ++ [(sample.Labels,
                  ⟨metric, [⟨sample.TimestampNano, sample.Value⟩]⟩)] })
          | none =>
            match parse sample.Labels with
            | none => load parse start endR fuel st
            | some metric =>
              load parse start endR fuel
                (consume { st with
                  metrics := st.metrics ++ [(sample.Labels, metric)],
                  window := st.window ++ [(sample.Labels,
                    ⟨metric, [⟨sample.TimestampNano, sample.Value⟩]⟩)] })

/-- `Next()`: slide the window one step; if the new position is past `end`
    report exhaustion, otherwise evict (`popBack`) and then ingest (`load`).
    The third component is `true` iff `load` completed within `fuel`. -/
def Next (parse : String → Option Lbls) (fuel : Nat) (st : IterState Lbls) :
    Bool × IterState Lbls × Bool :=
  let c := wrap64 (st.current + st.step)
  let st1 := { st with current := c }
  if st1.endT < c then (false, st1, true)
  else
    let rangeEnd := c
    let rangeStart := wrap64 (c - st1.selRange)
    let pb := popBack rangeStart st1.window
    let st2 := { st1 with window := pb.1, putCount := st1.putCount + pb.2 }
    let r := load parse rangeStart rangeEnd fuel st2
    (true, r.1, r.2)

/-- `newRangeVectorIterator`: normalize the step and set the initial position
    one step before `start`. -/
def newRangeVectorIterator (samples : List Sample)
    (selRange step start endR : Int) : IterState Lbls :=
  let step' := if step = 0 then 1 else step
  { samples := samples, pos := 0, selRange := selRange, step := step',
    endT := endR, current := wrap64 (start - step'),
    window := [], metrics := [], putCount := 0 }

/-- `At(aggregator)`: materialize the current window into (timestamp, vector).
    Returned as ((timestamp, vector), post-state); the method body only reads
    iterator state (no field writes, no source calls), so the post-state is
    the input state. -/
def At (aggregator : List Point → Int) (st : IterState Lbls) :
    (Int × List (OutSample Lbls)) × IterState Lbls :=
  let ts := Int.tdiv st.current 1000000
  ((ts, st.window.map fun e => ⟨ts, aggregator e.2.Points, e.2.Metric⟩), st)

/-- The results of `n` successive `Next()` calls and the final state. -/
def nextTrace (parse : String → Option Lbls) (fuel : Nat) :
    Nat → IterState Lbls → List Bool × IterState Lbls
  | 0, st => ([], st)
  | n + 1, st =>
    let r := Next parse fuel st
    let t := nextTrace parse fuel n r.2.1
    (r.1 :: t.1, t.2)

/-- States reachable from `init` through successful, fully-loaded `Next()`
    calls. -/
inductive Reach (parse : String → Option Lbls) (fuel : Nat)
    (init : IterState Lbls) : IterState Lbls → Prop
  | base : Reach parse fuel init init
  | step {st st' : IterState Lbls} : Reach parse fuel init st →
      Next parse fuel st = (true, st', true) → Reach parse fuel init st'

/-- The `sum` aggregator used in the end-to-end scenario. -/
def sumAgg (ps : List Point) : Int := (ps.map Point.V).sum

/-- A label resolver that accepts every fingerprint. -/
def parseOk : String → Option String := fun s => some s

/-- A label resolver that rejects every fingerprint. -/
def parseFail : String → Option String := fun _ => none

/-- An in-window sample whose label string fails to parse. -/
def badSample : Sample := ⟨"bad!", 3, 1⟩

/-- Ingestion state on window bounds `(0, 5]` about to peek `badSample`,
    whose fingerprint is neither in the window nor in the labels cache. -/
def badState : IterState String :=
  { samples := [badSample], pos := 0, selRange := 5, step := 5, endT := 10,
    current := 5, window := [], metrics := [], putCount := 0 }

/-- Source of the end-to-end scenario: fingerprint "A", samples
    (T=0,V=1), (T=3,V=2), (T=11,V=3). -/
def samples9 : List Sample := [⟨"A", 0, 1⟩, ⟨"A", 3, 2⟩, ⟨"A", 11, 3⟩]

/-- End-to-end scenario iterator: selRange 5, step 5, start 0, end 10. -/
def iter9 : IterState String := newRangeVectorIterator samples9 5 5 0 10

/-- Scenario state after the first `Next()`. -/
def iter9a : IterState String := (Next parseOk 10 iter9).2.1

/-- Scenario state after the second `Next()`. -/
def iter9b : IterState String := (Next parseOk 10 iter9a).2.1

/-- Scenario state after the third `Next()`. -/
def iter9c : IterState String := (Next parseOk 10 iter9b).2.1

/-- Scenario state after the fourth `Next()`. -/
def iter9d : IterState String := (Next parseOk 10 iter9c).2.1

/-- Iterator with step `2^62`, start 0, end −1: exhausted from the first
    call, but the int64 position wraps around on the third call. -/
def iterWrap : IterState String := newRangeVectorIterator [] 1 (2 ^ 62) 0 (-1)

/-- Source with a single very late sample, used against the window-bounds
    invariant under int64 wrap-around. -/
def samplesOv : List Sample := [⟨"A", 2 ^ 62, 1⟩]

/-- Iterator with selRange `2^62+1`, step `2^62`, start 0, end `2^62` over
    `samplesOv`: three successful steps, the third wrapping `current`. -/
def iterOv : IterState String :=
  newRangeVectorIterator samplesOv (2 ^ 62 + 1) (2 ^ 62) 0 (2 ^ 62)

/-- State of `iterOv` after one `Next()` call. -/
def iterOv1 : IterState String := (Next parseOk 10 iterOv).2.1

/-- State of `iterOv` after two `Next()` calls. -/
def iterOv2 : IterState String := (Next parseOk 10 iterOv1).2.1

/-- State of `iterOv` after three `Next()` calls (the third wraps
    `current`). -/
def iterOv3 : IterState String := (Next parseOk 10 iterOv2).2.1

/-- Source with one sample beyond the final window (T=11 > end=10). -/
def samplesLate : List Sample := [⟨"A", 11, 3⟩]

/-- Iterator over `samplesLate` with selRange 5, step 5, start 0, end 10. -/
def iterLate : IterState String := newRangeVectorIterator samplesLate 5 5 0 10

/-- Window invariant threaded through ingestion: every buffered series is
    non-decreasing in time, lies within the bounds `(lo, hi]`, and is no
    later than any not-yet-consumed sample of the source. -/
def WInv (samples₀ : List Sample) (pos : Nat) (lo hi : Int)
    (w : List (String × Series Lbls)) : Prop :=
  ∀ fp s, (fp, s) ∈ w →
    (s.Points.Pairwise fun a b => a.T ≤ b.T) ∧
    ∀ p ∈ s.Points, lo < p.T ∧ p.T ≤ hi ∧
      ∀ i (h : i < samples₀.length), pos ≤ i →
        p.T ≤ (samples₀.get ⟨i, h⟩).TimestampNano

/-- Constructor-parameter bounds under which the iterator's int64 arithmetic
    (`current + step` and `current − selRange`) never overflows during a
    run. -/
def GoodParams (selRange step start endR : Int) : Prop :=
  1 ≤ step ∧ 0 ≤ selRange ∧ i64min ≤ start - step - selRange ∧
    endR + step ≤ i64max ∧ start ≤ i64max

/-- Reachability invariant for the window-bounds property: configuration
    fields are those of the constructor, the cursor is in range, `current`
    has not passed `end` (except at construction), and the window satisfies
    `WInv` for the current bounds. -/
def InvC5 (samples₀ : List Sample) (selRange step start endR : Int)
    (st : IterState Lbls) : Prop :=
  st.samples = samples₀ ∧ st.selRange = selRange ∧ st.step = step ∧
  st.endT = endR ∧ st.pos ≤ samples₀.length ∧
  start - step ≤ st.current ∧ (st.current ≤ start - step ∨ st.current ≤ endR) ∧
  WInv samples₀ st.pos (st.current - selRange) st.current st.window

/-- An already-exhausted iterator state (current 11 past end 10, step 1),
    used to witness the amended exhaustion property. -/
def exhSt : IterState String :=
  { samples := [], pos := 0, selRange := 5, step := 1, endT := 10,
    current := 11, window := [], metrics := [], putCount := 0 }

/-- A two-entry window: entry "A" partially expires at bound 3, entry "B"
    becomes empty there. -/
def wC3 : List (String × Series String) :=
  [("A", ⟨"A", [⟨1, 1⟩, ⟨5, 2⟩]⟩), ("B", ⟨"B", [⟨2, 3⟩]⟩)]

/-- Ingestion witness state on bounds `(0, 5]`: one sample behind the window,
    one inside it, one beyond it. -/
def stC4 : IterState String :=
  { samples := [⟨"A", -1, 1⟩, ⟨"A", 3, 2⟩, ⟨"A", 7, 3⟩], pos := 0,
    selRange := 5, step := 5, endT := 10, current := 5,
    window := [], metrics := [], putCount := 0 }

/-- `wrap64` is the identity on values inside the int64 range. -/
theorem wrap64_eq_self {x : Int} (h1 : i64min ≤ x) (h2 : x ≤ i64max) :
    wrap64 x = x := by
  have e63 : (2 : Int) ^ 63 = 9223372036854775808 := by norm_num
  have e64 : (2 : Int) ^ 64 = 18446744073709551616 := by norm_num
  unfold i64min at h1
  unfold i64max at h2
  unfold wrap64
  rw [e63, e64] at *
  omega

/-- C1: the spec says a sample whose labels fail to resolve is consumed and
    silently dropped, with the load loop terminating.  The code instead hits
    the parse-error `continue` without calling `iter.Next()`, so it re-peeks
    the same sample forever: for every amount of fuel, `load` on a window
    `(0, 5]` whose head sample (T = 3) fails to parse neither consumes the
    sample nor changes any state nor terminates. -/
theorem load_parse_failure_loops (fuel : Nat) :
    load parseFail 0 5 fuel badState = (badState, false) := by
  induction fuel with
  | zero => rfl
  | succ n ih => exact ih

/-- C6 counterexample: the constructor only coerces a configured step equal
    to 0; a configured step of −1 is stored unchanged (not 1), and `current`
    then strictly decreases on `Next()` instead of increasing. -/
theorem negative_step_not_coerced :
    ¬ (newRangeVectorIterator [] 5 (-1) 0 10 : IterState String).step = 1 ∧
    (Next parseOk 1 (newRangeVectorIterator [] 5 (-1) 0 10 : IterState String)).2.1.current
      < (newRangeVectorIterator [] 5 (-1) 0 10 : IterState String).current := by
  constructor
  · decide
  · decide

/-- C9: the end-to-end scenario (selRange 5, step 5, start 0, end 10; source
    "A": (0,1), (3,2), (11,3)).  Construction sets the bound to −5; the first
    `Next()` is true with window {A:[1]} and `At(sum)` = (0, [{A,1}]); the
    second is true, evicts T=0 (returning the buffer to the pool) and ingests
    T=3, with `At(sum)` = (0, [{A,2}]); the third is true with an empty
    window and empty vector; the fourth is false and the T=11 sample is never
    consumed (only 2 of the 3 samples ever were). -/
theorem end_to_end_scenario :
    iter9.current = -5 ∧
    (nextTrace parseOk 10 4 iter9).1 = [true, true, true, false] ∧
    iter9a.window = [("A", ⟨"A", [⟨0, 1⟩]⟩)] ∧
    (At sumAgg iter9a).1 = (0, [⟨0, 1, "A"⟩]) ∧
    iter9b.window = [("A", ⟨"A", [⟨3, 2⟩]⟩)] ∧
    iter9b.putCount = 1 ∧
    (At sumAgg iter9b).1 = (0, [⟨0, 2, "A"⟩]) ∧
    iter9c.window = [] ∧
    (At sumAgg iter9c).1 = (0, []) ∧
    iter9d.pos = 2 ∧
    iter9d.samples.length = 3 := by
  refine ⟨by decide, by decide, by decide, by decide, by decide, by decide,
    by decide, by decide, by decide, by decide, by decide⟩

/-- C10: `At` is observation-only — it returns the iterator state unchanged
    (so the window store, labels cache, cursor position and bounds are
    untouched and no source call is made), and a repeated call with the same
    aggregator returns the same timestamp and vector. -/
theorem At_frame_effect (Lbls : Type) (agg : List Point → Int)
    (st : IterState Lbls) :
    (At agg st).2 = st ∧ (At agg ((At agg st).2)).1 = (At agg st).1 :=
  ⟨rfl, rfl⟩

/-- C7: `At(aggregator)` returns one output sample per window entry, each
    with value `aggregator(points)` and metric the entry's cached labels, and
    both the returned timestamp and every emitted sample's timestamp equal
    `current` integer-divided by 1,000,000 with truncation toward zero
    (`Int.tdiv`). -/
theorem At_materializes_window (Lbls : Type) (agg : List Point → Int)
    (st : IterState Lbls) :
    ((At agg st).1.1 = Int.tdiv st.current 1000000) ∧
    ((At agg st).1.2.length = st.window.length) ∧
    (∀ i (h : i < st.window.length),
      (At agg st).1.2.get? i =
        some ⟨Int.tdiv st.current 1000000,
              agg (st.window.get ⟨i, h⟩).2.Points,
              (st.window.get ⟨i, h⟩).2.Metric⟩) := by
  refine ⟨rfl, by simp [At], fun i h => ?_⟩
  simp only [At, List.get?_eq_getElem?, List.getElem?_map]
  simp [List.getElem?_eq_getElem h, List.get_eq_getElem]

/-- Witness for C7 at the scenario state after the second `Next()`. -/
theorem At_materializes_window_witness :
    (At sumAgg iter9b).1.2.get? 0 = some ⟨0, 2, "A"⟩ :=
  ((At_materializes_window String sumAgg iter9b).2.2 0 (by decide)).trans
    (by decide)

/-- C8 counterexample: with step `2^62`, start 0, end −1, the first two
    `Next()` calls return false (exhausted), but on the third call `current`
    wraps past the int64 maximum to `−2^63 ≤ end` and the call returns true
    again — exhaustion is not terminal. -/
theorem exhaustion_not_terminal_cex :
    (nextTrace parseOk 1 3 iterWrap).1 = [false, false, true] := by decide

/-- The point list splits into the dropped part (all `≤ newStart`) followed
    by the part the `popBack` scan keeps. -/
theorem trimPoints_decomp (n : Int) (ps : List Point) :
    ∃ dropped, ps = dropped ++ trimPoints n ps ∧ ∀ p ∈ dropped, p.T ≤ n := by
  induction ps with
  | nil => exact ⟨[], rfl, by simp⟩
  | cons p ps ih =>
    by_cases h : p.T ≤ n
    · obtain ⟨d, hd, hall⟩ := ih
      refine ⟨p :: d, ?_, ?_⟩
      · simp only [trimPoints, if_pos h, List.cons_append]
        exact congrArg (p :: ·) hd
      · intro q hq
        rcases List.mem_cons.mp hq with rfl | hq'
        · exact h
        · exact hall q hq'
    · exact ⟨[], by simp [trimPoints, h], by simp⟩

/-- On a non-decreasing point list, every point the scan keeps lies strictly
    above the bound. -/
theorem trimPoints_pairwise_gt (n : Int) (ps : List Point)
    (hs : ps.Pairwise fun a b => a.T ≤ b.T) :
    ∀ p ∈ trimPoints n ps, n < p.T := by
  induction ps with
  | nil => simp [trimPoints]
  | cons p ps ih =>
    rw [List.pairwise_cons] at hs
    by_cases h : p.T ≤ n
    · simpa [trimPoints, h] using ih hs.2
    · intro q hq
      rcases List.mem_cons.mp (by simpa [trimPoints, h] using hq) with rfl | hq'
      · exact lt_of_not_le h
      · exact lt_of_lt_of_le (lt_of_not_le h) (hs.1 q hq')

/-- The kept part of a non-decreasing point list is still non-decreasing. -/
theorem trimPoints_sorted (n : Int) (ps : List Point)
    (hs : ps.Pairwise fun a b => a.T ≤ b.T) :
    (trimPoints n ps).Pairwise fun a b => a.T ≤ b.T := by
  obtain ⟨d, hd, _⟩ := trimPoints_decomp n ps
  exact (List.pairwise_append.mp (hd ▸ hs)).2.1

/-- Every entry of the evicted window is an entry of the old window with its
    points trimmed, and only non-empty results are kept. -/
theorem popBack_mem {n : Int} {w : List (String × Series Lbls)} {fp : String}
    {s' : Series Lbls} (h : (fp, s') ∈ (popBack n w).1) :
    ∃ s, (fp, s) ∈ w ∧ s' = { s with Points := trimPoints n s.Points } ∧
      trimPoints n s.Points ≠ [] := by
  induction w with
  | nil => simp [popBack] at h
  | cons e rest ih =>
    obtain ⟨k, sr⟩ := e
    by_cases hk : trimPoints n sr.Points = []
    · rw [show popBack n ((k, sr) :: rest) = ((popBack n rest).1, (popBack n rest).2 + 1) by
        simp [popBack, hk]] at h
      obtain ⟨s, hmem, hs, hne⟩ := ih h
      exact ⟨s, List.mem_cons_of_mem _ hmem, hs, hne⟩
    · rw [show popBack n ((k, sr) :: rest)
          = ((k, { sr with Points := trimPoints n sr.Points }) :: (popBack n rest).1,
             (popBack n rest).2) by simp [popBack, hk]] at h
      rcases List.mem_cons.mp h with heq | hmem
      · obtain ⟨h1, h2⟩ := Prod.mk.injEq .. ▸ heq
        subst h1
        exact ⟨sr, List.mem_cons_self .., h2, hk⟩
      · obtain ⟨s, hmem', hs, hne⟩ := ih hmem
        exact ⟨s, List.mem_cons_of_mem _ hmem', hs, hne⟩

/-- An entry whose trimmed points are non-empty survives eviction. -/
theorem popBack_mem_keep {n : Int} {w : List (String × Series Lbls)}
    {fp : String} {s : Series Lbls} (h : (fp, s) ∈ w)
    (hne : trimPoints n s.Points ≠ []) :
    (fp, { s with Points := trimPoints n s.Points }) ∈ (popBack n w).1 := by
  induction w with
  | nil => simp at h
  | cons e rest ih =>
    obtain ⟨k, sr⟩ := e
    rcases List.mem_cons.mp h with heq | hmem
    · obtain ⟨h1, h2⟩ := Prod.mk.injEq .. ▸ heq
      subst h1; subst h2
      simp [popBack, hne]
    · by_cases hk : trimPoints n sr.Points = []
      · simpa [popBack, hk] using ih hmem
      · simp only [popBack, if_neg hk]
        exact List.mem_cons_of_mem _ (ih hmem)

/-- With duplicate-free keys, an entry whose trimmed points are empty is
    removed from the window: no entry under its fingerprint survives. -/
theorem popBack_removed {n : Int} {w : List (String × Series Lbls)}
    {fp : String} {s : Series Lbls} (hnd : (w.map Prod.fst).Nodup)
    (h : (fp, s) ∈ w) (he : trimPoints n s.Points = []) :
    ∀ s', (fp, s') ∉ (popBack n w).1 := by
  induction w with
  | nil => simp at h
  | cons e rest ih =>
    obtain ⟨k, sr⟩ := e
    rw [List.map_cons, List.nodup_cons] at hnd
    rcases List.mem_cons.mp h with heq | hmem
    · obtain ⟨h1, h2⟩ := Prod.mk.injEq .. ▸ heq
      subst h1; subst h2
      intro s' hs'
      rw [show popBack n ((fp, s) :: rest) = ((popBack n rest).1, (popBack n rest).2 + 1) by
        simp [popBack, he]] at hs'
      obtain ⟨s'', hmem'', _, _⟩ := popBack_mem hs'
      exact hnd.1 (List.mem_map.mpr ⟨(fp, s''), hmem'', rfl⟩)
    · intro s' hs'
      have hkfp : k ≠ fp := by
        rintro rfl
        exact hnd.1 (List.mem_map.mpr ⟨(k, s), hmem, rfl⟩)
      by_cases hk : trimPoints n sr.Points = []
      · rw [show popBack n ((k, sr) :: rest) = ((popBack n rest).1, (popBack n rest).2 + 1) by
          simp [popBack, hk]] at hs'
        exact ih hnd.2 hmem s' hs'
      · rw [show popBack n ((k, sr) :: rest)
            = ((k, { sr with Points := trimPoints n sr.Points }) :: (popBack n rest).1,
               (popBack n rest).2) by simp [popBack, hk]] at hs'
        rcases List.mem_cons.mp hs' with heq' | hmem'
        · exact hkfp (congrArg Prod.fst heq').symm
        · exact ih hnd.2 hmem s' hmem'

/-- `popBack` returns exactly one buffer to the pool per entry that becomes
    empty. -/
theorem popBack_putCount (n : Int) (w : List (String × Series Lbls)) :
    (popBack n w).2 = w.countP fun e => decide (trimPoints n e.2.Points = []) := by
  induction w with
  | nil => simp [popBack]
  | cons e rest ih =>
    obtain ⟨k, sr⟩ := e
    by_cases hk : trimPoints n sr.Points = []
    · simp [popBack, hk, List.countP_cons, ih]
    · simp [popBack, hk, List.countP_cons, ih]

/-- C3: for a window store whose per-series point lists are non-decreasing in
    timestamp (and whose fingerprints are unique, as in a Go map), eviction
    at bound `newStart` keeps — in unchanged relative order, as a contiguous
    suffix — exactly the points with `T > newStart`, drops only points with
    `T ≤ newStart`, and removes every entry whose point list becomes empty
    from the window while returning its buffer to the pool in that same
    call. -/
theorem popBack_evicts_correctly (Lbls : Type) (n : Int)
    (w : List (String × Series Lbls))
    (hs : ∀ fp s, (fp, s) ∈ w → s.Points.Pairwise fun a b => a.T ≤ b.T)
    (hnd : (w.map Prod.fst).Nodup) :
    (∀ fp s', (fp, s') ∈ (popBack n w).1 → ∀ p ∈ s'.Points, n < p.T) ∧
    (∀ fp s, (fp, s) ∈ w → ∃ dropped,
        s.Points = dropped ++ trimPoints n s.Points ∧ ∀ p ∈ dropped, p.T ≤ n) ∧
    (∀ fp s, (fp, s) ∈ w → trimPoints n s.Points ≠ [] →
        (fp, { s with Points := trimPoints n s.Points }) ∈ (popBack n w).1) ∧
    (∀ fp s, (fp, s) ∈ w → trimPoints n s.Points = [] →
        ∀ s', (fp, s') ∉ (popBack n w).1) ∧
    ((popBack n w).2 = w.countP fun e => decide (trimPoints n e.2.Points = [])) := by
  refine ⟨?_, ?_, ?_, ?_, popBack_putCount n w⟩
  · intro fp s' hmem p hp
    obtain ⟨s, hw, hs', _⟩ := popBack_mem hmem
    subst hs'
    exact trimPoints_pairwise_gt n s.Points (hs fp s hw) p hp
  · intro fp s _
    exact trimPoints_decomp n s.Points
  · intro fp s hw hne
    exact popBack_mem_keep hw hne
  · intro fp s hw he
    exact popBack_removed hnd hw he

/-- Witness for C3 on the concrete window `wC3` at bound 3: entry "A" keeps
    exactly its point at T = 5, entry "B" becomes empty and is removed with
    its buffer pooled. -/
theorem popBack_evicts_correctly_witness :
    ("A", (⟨"A", [⟨5, 2⟩]⟩ : Series String)) ∈ (popBack 3 wC3).1 ∧
    ("B", (⟨"B", []⟩ : Series String)) ∉ (popBack 3 wC3).1 ∧
    (popBack 3 wC3).2 = 1 := by
  have h := popBack_evicts_correctly String 3 wC3
    (by intro fp s hmem; fin_cases hmem <;> decide) (by decide)
  refine ⟨?_, ?_, ?_⟩
  · have := h.2.2.1 "A" ⟨"A", [⟨1, 1⟩, ⟨5, 2⟩]⟩ (by decide) (by decide)
    simpa using this
  · exact h.2.2.2.1 "B" ⟨"B", [⟨2, 3⟩]⟩ (by decide) (by decide) ⟨"B", []⟩
  · exact h.2.2.2.2.trans (by decide)

/-- Ingestion touches only the cursor, the window and the labels cache: the
    source list, the configuration fields and `current` are preserved, and
    the cursor never moves backwards. -/
theorem load_config (parse : String → Option Lbls) (start endR : Int) :
    ∀ (fuel : Nat) (st : IterState Lbls),
      (load parse start endR fuel st).1.samples = st.samples ∧
      (load parse start endR fuel st).1.selRange = st.selRange ∧
      (load parse start endR fuel st).1.step = st.step ∧
      (load parse start endR fuel st).1.endT = st.endT ∧
      (load parse start endR fuel st).1.current = st.current ∧
      (load parse start endR fuel st).1.putCount = st.putCount ∧
      st.pos ≤ (load parse start endR fuel st).1.pos := by
  intro fuel
  induction fuel with
  | zero => intro st; simp [load]
  | succ n ih =>
    intro st
    cases hp : peekSample st with
    | none => simp [load, hp]
    | some sample =>
      by_cases h1 : endR < sample.TimestampNano
      · simp [load, hp, h1]
      · by_cases h2 : sample.TimestampNano ≤ start
        · simp only [load, hp, if_neg h1, if_pos h2]
          obtain ⟨a, b, c, d, e, f, g⟩ := ih (consume st)
          exact ⟨a, b, c, d, e, f, Nat.le_of_succ_le g⟩
        · simp only [load, hp, if_neg h1, if_neg h2]
          cases hw : lookupFp st.window sample.Labels with
          | some s0 =>
            simp only
            obtain ⟨a, b, c, d, e, f, g⟩ := ih (consume { st with
              window := appendPoint sample.Labels
                ⟨sample.TimestampNano, sample.Value⟩ st.window })
            exact ⟨a, b, c, d, e, f, Nat.le_of_succ_le g⟩
          | none =>
            cases hm : lookupFp st.metrics sample.Labels with
            | some metric =>
              simp only
              obtain ⟨a, b, c, d, e, f, g⟩ := ih (consume { st with
                window := st.window ++ [(sample.Labels,
                  ⟨metric, [⟨sample.TimestampNano, sample.Value⟩]⟩)] })
              exact ⟨a, b, c, d, e, f, Nat.le_of_succ_le g⟩
            | none =>
              cases hq : parse sample.Labels with
              | none => simpa only using ih st
              | some metric =>
                simp only
                obtain ⟨a, b, c, d, e, f, g⟩ := ih (consume { st with
                  metrics := st.metrics ++ [(sample.Labels, metric)],
                  window := st.window ++ [(sample.Labels,
                    ⟨metric, [⟨sample.TimestampNano, sample.Value⟩]⟩)] })
                exact ⟨a, b, c, d, e, f, Nat.le_of_succ_le g⟩

/-- Ingestion never moves the cursor past the end of the source. -/
theorem load_pos_le (parse : String → Option Lbls) (start endR : Int) :
    ∀ (fuel : Nat) (st : IterState Lbls), st.pos ≤ st.samples.length →
      (load parse start endR fuel st).1.pos ≤ st.samples.length := by
  intro fuel
  induction fuel with
  | zero => intro st h; simpa [load] using h
  | succ n ih =>
    intro st h
    cases hp : peekSample st with
    | none => simpa [load, hp] using h
    | some sample =>
      have hlt : st.pos < st.samples.length := by
        rcases List.get?_eq_some.mp hp with ⟨hh, _⟩
        exact hh
      by_cases h1 : endR < sample.TimestampNano
      · simpa [load, hp, h1] using h
      · by_cases h2 : sample.TimestampNano ≤ start
        · simp only [load, hp, if_neg h1, if_pos h2]
          exact ih (consume st) hlt
        · simp only [load, hp, if_neg h1, if_neg h2]
          cases hw : lookupFp st.window sample.Labels with
          | some s0 => exact ih _ hlt
          | none =>
            cases hm : lookupFp st.metrics sample.Labels with
            | some metric => exact ih _ hlt
            | none =>
              cases hq : parse sample.Labels with
              | none => exact ih st h
              | some metric => exact ih _ hlt

/-- Every entry of a window after `appendPoint` is either an old entry or the
    updated entry under the matched key with the point appended. -/
theorem appendPoint_mem {fp k : String} {p : Point}
    {w : List (String × Series Lbls)} {s' : Series Lbls}
    (h : (fp, s') ∈ appendPoint k p w) :
    (fp, s') ∈ w ∨
      ∃ s, (fp, s) ∈ w ∧ fp = k ∧ s' = { s with Points := s.Points ++ [p] } := by
  induction w with
  | nil => simp [appendPoint] at h
  | cons e rest ih =>
    obtain ⟨k0, s0⟩ := e
    by_cases hk : k0 = k
    · subst hk
      rw [show appendPoint k0 p ((k0, s0) :: rest)
          = (k0, { s0 with Points := s0.Points ++ [p] }) :: rest by
        simp [appendPoint]] at h
      rcases List.mem_cons.mp h with heq | hmem
      · obtain ⟨h1, h2⟩ := Prod.mk.injEq .. ▸ heq
        subst h1
        exact Or.inr ⟨s0, List.mem_cons_self .., rfl, h2⟩
      · exact Or.inl (List.mem_cons_of_mem _ hmem)
    · rw [show appendPoint k p ((k0, s0) :: rest)
          = (k0, s0) :: appendPoint k p rest by simp [appendPoint, hk]] at h
      rcases List.mem_cons.mp h with heq | hmem
      · exact Or.inl (List.mem_cons.mpr (Or.inl heq))
      · rcases ih hmem with hold | ⟨s, hmem', hfp, hs⟩
        · exact Or.inl (List.mem_cons_of_mem _ hold)
        · exact Or.inr ⟨s, List.mem_cons_of_mem _ hmem', hfp, hs⟩

/-- C4 part 1: every sample consumed by `load` has a timestamp at most
    `rangeEnd`. -/
theorem load_consumed_in_bounds (parse : String → Option Lbls)
    (start endR : Int) :
    ∀ (fuel : Nat) (st : IterState Lbls) (i : Nat) (h : i < st.samples.length),
      st.pos ≤ i → i < (load parse start endR fuel st).1.pos →
      (st.samples.get ⟨i, h⟩).TimestampNano ≤ endR := by
  intro fuel
  induction fuel with
  | zero =>
    intro st i h hge hlt
    rw [show (load parse start endR 0 st).1 = st from rfl] at hlt
    omega
  | succ n ih =>
    intro st i h hge hlt
    cases hp : peekSample st with
    | none =>
      rw [show (load parse start endR (n + 1) st).1 = st by simp [load, hp]] at hlt
      omega
    | some sample =>
      have hsamp : st.samples.get ⟨st.pos, _⟩ = sample :=
        (List.get?_eq_some.mp hp).choose_spec
      by_cases h1 : endR < sample.TimestampNano
      · rw [show (load parse start endR (n + 1) st).1 = st by
          simp [load, hp, h1]] at hlt
        omega
      · rcases Nat.eq_or_lt_of_le hge with heq | hgt
        · have : st.samples.get ⟨i, h⟩ = sample := by
            subst heq; exact hsamp
          rw [this]
          exact not_lt.mp h1
        · by_cases h2 : sample.TimestampNano ≤ start
          · rw [show (load parse start endR (n + 1) st).1
                = (load parse start endR n (consume st)).1 by
              simp [load, hp, h1, h2]] at hlt
            exact ih (consume st) i h hgt hlt
          · simp only [load, hp, if_neg h1, if_neg h2] at hlt
            cases hw : lookupFp st.window sample.Labels with
            | some s0 =>
              rw [hw] at hlt
              exact ih (consume { st with
                window := appendPoint sample.Labels
                  ⟨sample.TimestampNano, sample.Value⟩ st.window }) i h hgt hlt
            | none =>
              rw [hw] at hlt
              cases hm : lookupFp st.metrics sample.Labels with
              | some metric =>
                rw [hm] at hlt
                exact ih (consume { st with
                  window := st.window ++ [(sample.Labels,
                    ⟨metric, [⟨sample.TimestampNano, sample.Value⟩]⟩)] }) i h hgt hlt
              | none =>
                rw [hm] at hlt
                cases hq : parse sample.Labels with
                | none =>
                  rw [hq] at hlt
                  exact ih st i h hge hlt
                | some metric =>
                  rw [hq] at hlt
                  exact ih (consume { st with
                    metrics := st.metrics ++ [(sample.Labels, metric)],
                    window := st.window ++ [(sample.Labels,
                      ⟨metric, [⟨sample.TimestampNano, sample.Value⟩]⟩)] }) i h hgt hlt

/-- C4 part 2: when `load` exits normally it stops exactly at the first
    peeked sample beyond `rangeEnd` (without consuming it), or at source
    exhaustion — in particular a peeked sample with `T ≤ rangeStart` never
    stops it. -/
theorem load_done_head (parse : String → Option Lbls) (start endR : Int) :
    ∀ (fuel : Nat) (st : IterState Lbls), st.pos ≤ st.samples.length →
      (load parse start endR fuel st).2 = true →
      (st.samples.length ≤ (load parse start endR fuel st).1.pos ∨
       ∃ (h : (load parse start endR fuel st).1.pos < st.samples.length),
         endR < (st.samples.get
           ⟨(load parse start endR fuel st).1.pos, h⟩).TimestampNano) := by
  intro fuel
  induction fuel with
  | zero => intro st _ hdone; simp [load] at hdone
  | succ n ih =>
    intro st hle hdone
    cases hp : peekSample st with
    | none =>
      left
      have := List.get?_eq_none.mp hp
      simpa [load, hp] using this
    | some sample =>
      have hlt : st.pos < st.samples.length := by
        rcases List.get?_eq_some.mp hp with ⟨hh, _⟩
        exact hh
      have hsamp : st.samples.get ⟨st.pos, hlt⟩ = sample :=
        (List.get?_eq_some.mp hp).choose_spec
      by_cases h1 : endR < sample.TimestampNano
      · right
        refine ⟨by simpa [load, hp, h1] using hlt, ?_⟩
        have : (load parse start endR (n + 1) st).1 = st := by simp [load, hp, h1]
        simp only [this, hsamp]
        exact h1
      · by_cases h2 : sample.TimestampNano ≤ start
        · simp only [load, hp, if_neg h1, if_pos h2] at hdone ⊢
          exact ih (consume st) hlt hdone
        · cases hw : lookupFp st.window sample.Labels with
          | some s0 =>
            rw [show load parse start endR (n + 1) st
                = load parse start endR n (consume { st with
                    window := appendPoint sample.Labels
                      ⟨sample.TimestampNano, sample.Value⟩ st.window }) by
              simp [load, hp, h1, h2, hw]] at hdone ⊢
            exact ih (consume { st with
              window := appendPoint sample.Labels
                ⟨sample.TimestampNano, sample.Value⟩ st.window }) hlt hdone
          | none =>
            cases hm : lookupFp st.metrics sample.Labels with
            | some metric =>
              rw [show load parse start endR (n + 1) st
                  = load parse start endR n (consume { st with
                      window := st.window ++ [(sample.Labels,
                        ⟨metric, [⟨sample.TimestampNano, sample.Value⟩]⟩)] }) by
                simp [load, hp, h1, h2, hw, hm]] at hdone ⊢
              exact ih (consume { st with
                window := st.window ++ [(sample.Labels,
                  ⟨metric, [⟨sample.TimestampNano, sample.Value⟩]⟩)] }) hlt hdone
            | none =>
              cases hq : parse sample.Labels with
              | none =>
                rw [show load parse start endR (n + 1) st
                    = load parse start endR n st by
                  simp [load, hp, h1, h2, hw, hm, hq]] at hdone ⊢
                exact ih st hle hdone
              | some metric =>
                rw [show load parse start endR (n + 1) st
                    = load parse start endR n (consume { st with
                        metrics := st.metrics ++ [(sample.Labels, metric)],
                        window := st.window ++ [(sample.Labels,
                          ⟨metric, [⟨sample.TimestampNano, sample.Value⟩]⟩)] }) by
                  simp [load, hp, h1, h2, hw, hm, hq]] at hdone ⊢
                exact ih (consume { st with
                  metrics := st.metrics ++ [(sample.Labels, metric)],
                  window := st.window ++ [(sample.Labels,
                    ⟨metric, [⟨sample.TimestampNano, sample.Value⟩]⟩)] }) hlt hdone

/-- C4 part 3: every point in the window after `load` was already there
    before, or came from a sample strictly inside `(rangeStart, rangeEnd]`. -/
theorem load_window_new (parse : String → Option Lbls) (start endR : Int) :
    ∀ (fuel : Nat) (st : IterState Lbls) (fp : String) (s' : Series Lbls),
      (fp, s') ∈ (load parse start endR fuel st).1.window →
      ∀ p ∈ s'.Points,
        (∃ s, (fp, s) ∈ st.window ∧ p ∈ s.Points) ∨
        (start < p.T ∧ p.T ≤ endR) := by
  intro fuel
  induction fuel with
  | zero =>
    intro st fp s' hmem p hp
    exact Or.inl ⟨s', by simpa [load] using hmem, hp⟩
  | succ n ih =>
    intro st fp s' hmem p hp
    cases hpk : peekSample st with
    | none =>
      rw [show (load parse start endR (n + 1) st).1 = st by simp [load, hpk]] at hmem
      exact Or.inl ⟨s', hmem, hp⟩
    | some sample =>
      by_cases h1 : endR < sample.TimestampNano
      · rw [show (load parse start endR (n + 1) st).1 = st by
          simp [load, hpk, h1]] at hmem
        exact Or.inl ⟨s', hmem, hp⟩
      · by_cases h2 : sample.TimestampNano ≤ start
        · simp only [load, hpk, if_neg h1, if_pos h2] at hmem
          exact ih (consume st) fp s' hmem p hp
        · simp only [load, hpk, if_neg h1, if_neg h2] at hmem
          cases hw : lookupFp st.window sample.Labels with
          | some s0 =>
            rw [hw] at hmem
            rcases ih (consume { st with
                window := appendPoint sample.Labels
                  ⟨sample.TimestampNano, sample.Value⟩ st.window }) fp s' hmem p hp
              with ⟨s, hsm, hps⟩ | hin
            · rcases appendPoint_mem hsm with hold | ⟨s1, hmem1, _, hs1⟩
              · exact Or.inl ⟨s, hold, hps⟩
              · subst hs1
                rcases List.mem_append.mp hps with hold | hnew
                · exact Or.inl ⟨s1, hmem1, hold⟩
                · have : p = ⟨sample.TimestampNano, sample.Value⟩ :=
                    List.mem_singleton.mp hnew
                  subst this
                  exact Or.inr ⟨not_le.mp h2, not_lt.mp h1⟩
            · exact Or.inr hin
          | none =>
            rw [hw] at hmem
            cases hm : lookupFp st.metrics sample.Labels with
            | some metric =>
              rw [hm] at hmem
              rcases ih (consume { st with
                  window := st.window ++ [(sample.Labels,
                    ⟨metric, [⟨sample.TimestampNano, sample.Value⟩]⟩)] }) fp s' hmem p hp
                with ⟨s, hsm, hps⟩ | hin
              · rcases List.mem_append.mp hsm with hold | hnew
                · exact Or.inl ⟨s, hold, hps⟩
                · obtain ⟨hfp, hsval⟩ := Prod.mk.injEq .. ▸ List.mem_singleton.mp hnew
                  subst hsval
                  have : p = ⟨sample.TimestampNano, sample.Value⟩ :=
                    List.mem_singleton.mp hps
                  subst this
                  exact Or.inr ⟨not_le.mp h2, not_lt.mp h1⟩
              · exact Or.inr hin
            | none =>
              rw [hm] at hmem
              cases hq : parse sample.Labels with
              | none =>
                rw [hq] at hmem
                exact ih st fp s' hmem p hp
              | some metric =>
                rw [hq] at hmem
                rcases ih (consume { st with
                    metrics := st.metrics ++ [(sample.Labels, metric)],
                    window := st.window ++ [(sample.Labels,
                      ⟨metric, [⟨sample.TimestampNano, sample.Value⟩]⟩)] }) fp s' hmem p hp
                  with ⟨s, hsm, hps⟩ | hin
                · rcases List.mem_append.mp hsm with hold | hnew
                  · exact Or.inl ⟨s, hold, hps⟩
                  · obtain ⟨hfp, hsval⟩ := Prod.mk.injEq .. ▸ List.mem_singleton.mp hnew
                    subst hsval
                    have : p = ⟨sample.TimestampNano, sample.Value⟩ :=
                      List.mem_singleton.mp hps
                    subst this
                    exact Or.inr ⟨not_le.mp h2, not_lt.mp h1⟩
                · exact Or.inr hin

/-- C4: for every window bounds and source state, ingestion never consumes a
    sample with `T > rangeEnd` (on normal exit it stopped at the first such
    peeked sample, or at exhaustion, without consuming it), it consumes
    without storing every peeked sample with `T ≤ rangeStart`, and only
    samples with `rangeStart < T ≤ rangeEnd` are appended to a series
    entry. -/
theorem load_bounds_correct (Lbls : Type) (parse : String → Option Lbls)
    (start endR : Int) (fuel : Nat) (st : IterState Lbls)
    (hle : st.pos ≤ st.samples.length) :
    (∀ i (h : i < st.samples.length), st.pos ≤ i →
        i < (load parse start endR fuel st).1.pos →
        (st.samples.get ⟨i, h⟩).TimestampNano ≤ endR) ∧
    ((load parse start endR fuel st).2 = true →
      (st.samples.length ≤ (load parse start endR fuel st).1.pos ∨
       ∃ (h : (load parse start endR fuel st).1.pos < st.samples.length),
         endR < (st.samples.get
           ⟨(load parse start endR fuel st).1.pos, h⟩).TimestampNano)) ∧
    (∀ fp s', (fp, s') ∈ (load parse start endR fuel st).1.window →
      ∀ p ∈ s'.Points,
        (∃ s, (fp, s) ∈ st.window ∧ p ∈ s.Points) ∨
        (start < p.T ∧ p.T ≤ endR)) ∧
    ((load parse start endR fuel st).2 = true → start ≤ endR →
      (st.samples.length ≤ (load parse start endR fuel st).1.pos ∨
       ∃ (h : (load parse start endR fuel st).1.pos < st.samples.length),
         start < (st.samples.get
           ⟨(load parse start endR fuel st).1.pos, h⟩).TimestampNano)) := by
  refine ⟨fun i h => load_consumed_in_bounds parse start endR fuel st i h,
    load_done_head parse start endR fuel st hle,
    load_window_new parse start endR fuel st, ?_⟩
  intro hdone hse
  rcases load_done_head parse start endR fuel st hle hdone with hl | ⟨h, hgt⟩
  · exact Or.inl hl
  · exact Or.inr ⟨h, lt_of_le_of_lt hse hgt⟩

/-- Witness for C4 on `stC4`: the sample at T = −1 was consumed and is within
    the bound, and the loop stopped exactly at the T = 7 sample. -/
theorem load_bounds_correct_witness :
    ((stC4.samples.get ⟨0, by decide⟩).TimestampNano ≤ 5) ∧
    5 < (stC4.samples.get
      ⟨(load parseOk 0 5 10 stC4).1.pos, by decide⟩).TimestampNano := by
  have h := load_bounds_correct String parseOk 0 5 10 stC4 (by decide)
  refine ⟨h.1 0 (by decide) (by decide) (by decide), ?_⟩
  rcases h.2.1 (by decide) with hl | ⟨hh, hgt⟩
  · exact absurd hl (by decide)
  · exact hgt

/-- `Next` always sets `current` to the wrapped `current + step`, in both the
    exhausted and the successful branch. -/
theorem next_current (parse : String → Option Lbls) (fuel : Nat)
    (st : IterState Lbls) :
    (Next parse fuel st).2.1.current = wrap64 (st.current + st.step) := by
  unfold Next
  by_cases h : st.endT < wrap64 (st.current + st.step)
  · simp [h]
  · simp only [if_neg h]
    exact (load_config parse _ _ fuel _).2.2.2.2.1

/-- C6 amended: the constructor coerces only a configured step of exactly 0
    to 1 (a negative step is stored unchanged); for states with effective
    step ≥ 1 and no int64 overflow, `current` strictly increases on every
    `Next()` call. -/
theorem step_coercion_amended (Lbls : Type) (samples : List Sample)
    (selRange step start endR : Int) (parse : String → Option Lbls)
    (fuel : Nat) (st : IterState Lbls)
    (h1 : 1 ≤ st.step) (h2 : i64min ≤ st.current)
    (h3 : st.current + st.step ≤ i64max) :
    (newRangeVectorIterator samples selRange step start endR
        : IterState Lbls).step = (if step = 0 then 1 else step) ∧
    st.current < (Next parse fuel st).2.1.current := by
  refine ⟨rfl, ?_⟩
  rw [next_current, wrap64_eq_self (le_trans h2 (by linarith)) h3]
  linarith

/-- Witness for C6 amended: configured step 0 is stored as 1, and the
    exhausted state's position still advances. -/
theorem step_coercion_amended_witness :
    (newRangeVectorIterator [] 5 0 0 10 : IterState String).step = 1 ∧
    exhSt.current < (Next parseOk 1 exhSt).2.1.current := by
  have h := step_coercion_amended String [] 5 0 0 10 parseOk 1 exhSt
    (by decide) (by decide) (by decide)
  exact ⟨h.1.trans (by decide), h.2⟩

/-- C8 amended: a `Next()` call that moves `current + step` past `end`
    returns false and leaves everything but `current` unchanged (window
    store, labels cache, source cursor); all subsequent calls also return
    false as long as the int64 position does not overflow — with overflow
    (see the counterexample) a later call can return true again. -/
theorem exhaustion_terminal_amended (Lbls : Type)
    (parse : String → Option Lbls) (fuel : Nat)
    (st : IterState Lbls) (k : Nat)
    (hstep : 1 ≤ st.step) (hlo : i64min ≤ st.current)
    (hend : st.endT < st.current + st.step)
    (hhi : st.current + ((k : Int) + 1) * st.step ≤ i64max) :
    nextTrace parse fuel (k + 1) st =
      (List.replicate (k + 1) false,
       { st with current := st.current + ((k : Int) + 1) * st.step }) := by
  induction k generalizing st with
  | zero =>
    have hh : st.current + st.step ≤ i64max := by
      have : st.current + ((0 : Int) + 1) * st.step ≤ i64max := by exact_mod_cast hhi
      linarith
    have hw : wrap64 (st.current + st.step) = st.current + st.step :=
      wrap64_eq_self (le_trans hlo (by linarith)) hh
    have hnext : Next parse fuel st
        = (false, { st with current := st.current + st.step }, true) := by
      unfold Next
      rw [hw]
      simp [hend]
    simp only [nextTrace, hnext]
    norm_num
  | succ n ihn =>
    have hh : st.current + st.step ≤ i64max := by
      have hnn : (0 : Int) ≤ (n : Int) + 1 := by positivity
      nlinarith
    have hw : wrap64 (st.current + st.step) = st.current + st.step :=
      wrap64_eq_self (le_trans hlo (by linarith)) hh
    have hnext : Next parse fuel st
        = (false, { st with current := st.current + st.step }, true) := by
      unfold Next
      rw [hw]
      simp [hend]
    have hrec := ihn { st with current := st.current + st.step }
      hstep (le_trans hlo (by simp; linarith))
      (by simp; linarith)
      (by simp; push_cast at hhi ⊢; linarith)
    have step1 : nextTrace parse fuel (n + 1 + 1) st
        = (false :: (nextTrace parse fuel (n + 1)
              { st with current := st.current + st.step }).1,
           (nextTrace parse fuel (n + 1)
              { st with current := st.current + st.step }).2) := by
      rw [show nextTrace parse fuel (n + 1 + 1) st
          = ((Next parse fuel st).1
              :: (nextTrace parse fuel (n + 1) (Next parse fuel st).2.1).1,
             (nextTrace parse fuel (n + 1) (Next parse fuel st).2.1).2)
          from rfl, hnext]
    rw [step1, hrec]
    refine Prod.ext ?_ ?_
    · simp [List.replicate_succ]
    · show ({ st with
          current := st.current + st.step + ((n : Int) + 1) * st.step }
            : IterState Lbls)
        = { st with current := st.current + (((n + 1 : Nat) : Int) + 1) * st.step }
      have harith : st.current + st.step + ((n : Int) + 1) * st.step
          = st.current + (((n + 1 : Nat) : Int) + 1) * st.step := by
        push_cast
        ring
      rw [harith]

/-- Witness for C8 amended: from the exhausted state `exhSt` three further
    calls all return false and only `current` moves. -/
theorem exhaustion_terminal_amended_witness :
    nextTrace parseOk 1 3 exhSt
      = (List.replicate 3 false, { exhSt with current := 14 }) := by
  have h := exhaustion_terminal_amended String parseOk 1 exhSt 2
    (by decide) (by decide) (by decide) (by decide)
  exact h.trans (by decide)

/-- Weakening the cursor in the window invariant. -/
theorem winv_mono (samples₀ : List Sample) (pos pos' : Nat) (lo hi : Int)
    (w : List (String × Series Lbls)) (hle : pos ≤ pos')
    (hw : WInv samples₀ pos lo hi w) : WInv samples₀ pos' lo hi w := by
  intro fp s hs
  obtain ⟨h1, h2⟩ := hw fp s hs
  exact ⟨h1, fun p hp => ⟨(h2 p hp).1, (h2 p hp).2.1,
    fun i h hi' => (h2 p hp).2.2 i h (le_trans hle hi')⟩⟩

/-- Eviction re-establishes the window invariant at a new lower bound and a
    widened upper bound. -/
theorem popBack_winv (samples₀ : List Sample) (pos : Nat) (lo lo' hi hi' : Int)
    (w : List (String × Series Lbls))
    (hw : WInv samples₀ pos lo hi w) (hhi : hi ≤ hi') :
    WInv samples₀ pos lo' hi' (popBack lo' w).1 := by
  intro fp s' hmem
  obtain ⟨s, hsm, rfl, _⟩ := popBack_mem hmem
  obtain ⟨hsort, hpts⟩ := hw fp s hsm
  refine ⟨trimPoints_sorted lo' s.Points hsort, ?_⟩
  intro p hp
  have hpmem : p ∈ s.Points := by
    obtain ⟨d, hd, _⟩ := trimPoints_decomp lo' s.Points
    rw [hd]
    exact List.mem_append_right d hp
  obtain ⟨_, hhi0, hsrcp⟩ := hpts p hpmem
  exact ⟨trimPoints_pairwise_gt lo' s.Points hsort p hp,
    le_trans hhi0 hhi, hsrcp⟩

/-- Appending the head sample's point to its series preserves the window
    invariant for the advanced cursor. -/
theorem winv_appendPoint (samples₀ : List Sample) (pos : Nat) (lo hi : Int)
    (w : List (String × Series Lbls)) (k : String) (p : Point)
    (hcur : pos < samples₀.length)
    (hpT : p.T = (samples₀.get ⟨pos, hcur⟩).TimestampNano)
    (hsrc : samples₀.Pairwise fun a b => a.TimestampNano ≤ b.TimestampNano)
    (hw : WInv samples₀ pos lo hi w)
    (hlo : lo < p.T) (hhi : p.T ≤ hi) :
    WInv samples₀ (pos + 1) lo hi (appendPoint k p w) := by
  have hfut : ∀ i (h : i < samples₀.length), pos + 1 ≤ i →
      p.T ≤ (samples₀.get ⟨i, h⟩).TimestampNano := by
    intro i h hi'
    rw [hpT]
    exact List.pairwise_iff_get.mp hsrc ⟨pos, hcur⟩ ⟨i, h⟩ hi'
  intro fp s' hmem
  rcases appendPoint_mem hmem with hold | ⟨s, hsm, _, rfl⟩
  · exact winv_mono samples₀ pos (pos + 1) lo hi w (Nat.le_succ pos) hw fp s' hold
  · obtain ⟨hsort, hpts⟩ := hw fp s hsm
    have hle_p : ∀ q ∈ s.Points, q.T ≤ p.T := by
      intro q hq
      rw [hpT]
      exact (hpts q hq).2.2 pos hcur (le_refl pos)
    refine ⟨?_, ?_⟩
    · rw [List.pairwise_append]
      refine ⟨hsort, List.pairwise_singleton .., ?_⟩
      intro a ha b hb
      rw [List.mem_singleton.mp hb]
      exact hle_p a ha
    · intro q hq
      rcases List.mem_append.mp hq with hq' | hq'
      · obtain ⟨a, b, c⟩ := hpts q hq'
        exact ⟨a, b, fun i h hi' => c i h (Nat.le_of_succ_le hi')⟩
      · rw [List.mem_singleton.mp hq']
        exact ⟨hlo, hhi, hfut⟩

/-- Inserting a fresh single-point series for the head sample preserves the
    window invariant for the advanced cursor. -/
theorem winv_insert (samples₀ : List Sample) (pos : Nat) (lo hi : Int)
    (w : List (String × Series Lbls)) (k : String) (m : Lbls) (p : Point)
    (hcur : pos < samples₀.length)
    (hpT : p.T = (samples₀.get ⟨pos, hcur⟩).TimestampNano)
    (hsrc : samples₀.Pairwise fun a b => a.TimestampNano ≤ b.TimestampNano)
    (hw : WInv samples₀ pos lo hi w)
    (hlo : lo < p.T) (hhi : p.T ≤ hi) :
    WInv samples₀ (pos + 1) lo hi (w ++ [(k, ⟨m, [p]⟩)]) := by
  have hfut : ∀ i (h : i < samples₀.length), pos + 1 ≤ i →
      p.T ≤ (samples₀.get ⟨i, h⟩).TimestampNano := by
    intro i h hi'
    rw [hpT]
    exact List.pairwise_iff_get.mp hsrc ⟨pos, hcur⟩ ⟨i, h⟩ hi'
  intro fp s' hmem
  rcases List.mem_append.mp hmem with hold | hnew
  · exact winv_mono samples₀ pos (pos + 1) lo hi w (Nat.le_succ pos) hw fp s' hold
  · obtain ⟨_, hsval⟩ := Prod.mk.injEq .. ▸ List.mem_singleton.mp hnew
    subst hsval
    refine ⟨List.pairwise_singleton .., ?_⟩
    intro q hq
    rw [List.mem_singleton.mp hq]
    exact ⟨hlo, hhi, hfut⟩

/-- Ingestion preserves the window invariant: every appended point comes from
    the head sample, lies strictly inside `(start, endR]`, extends its series
    in non-decreasing order, and is no later than the unconsumed source. -/
theorem load_winv (parse : String → Option Lbls) (start endR : Int)
    (samples₀ : List Sample)
    (hsrc : samples₀.Pairwise fun a b => a.TimestampNano ≤ b.TimestampNano) :
    ∀ (fuel : Nat) (st : IterState Lbls), st.samples = samples₀ →
      WInv samples₀ st.pos start endR st.window →
      WInv samples₀ (load parse start endR fuel st).1.pos start endR
        (load parse start endR fuel st).1.window := by
  intro fuel
  induction fuel with
  | zero => intro st _ hw; exact hw
  | succ n ih =>
    intro st hsm hw
    cases hp : peekSample st with
    | none =>
      rw [show load parse start endR (n + 1) st = (st, true) by simp [load, hp]]
      exact hw
    | some sample =>
      have hp' : samples₀.get? st.pos = some sample := by
        have : st.samples.get? st.pos = some sample := hp
        rwa [hsm] at this
      have hcur : st.pos < samples₀.length :=
        (List.get?_eq_some.mp hp').choose
      have hpT : sample.TimestampNano
          = (samples₀.get ⟨st.pos, hcur⟩).TimestampNano := by
        rw [(List.get?_eq_some.mp hp').choose_spec]
      by_cases h1 : endR < sample.TimestampNano
      · rw [show load parse start endR (n + 1) st = (st, true) by
          simp [load, hp, h1]]
        exact hw
      · by_cases h2 : sample.TimestampNano ≤ start
        · rw [show load parse start endR (n + 1) st
              = load parse start endR n (consume st) by simp [load, hp, h1, h2]]
          exact ih (consume st) hsm
            (winv_mono samples₀ st.pos (st.pos + 1) start endR st.window
              (Nat.le_succ _) hw)
        · cases hlw : lookupFp st.window sample.Labels with
          | some s0 =>
            rw [show load parse start endR (n + 1) st
                = load parse start endR n (consume { st with
                    window := appendPoint sample.Labels
                      ⟨sample.TimestampNano, sample.Value⟩ st.window }) by
              simp [load, hp, h1, h2, hlw]]
            exact ih _ hsm
              (winv_appendPoint samples₀ st.pos start endR st.window
                sample.Labels ⟨sample.TimestampNano, sample.Value⟩ hcur hpT
                hsrc hw (not_le.mp h2) (not_lt.mp h1))
          | none =>
            cases hlm : lookupFp st.metrics sample.Labels with
            | some metric =>
              rw [show load parse start endR (n + 1) st
                  = load parse start endR n (consume { st with
                      window := st.window ++ [(sample.Labels,
                        ⟨metric, [⟨sample.TimestampNano, sample.Value⟩]⟩)] }) by
                simp [load, hp, h1, h2, hlw, hlm]]
              exact ih _ hsm
                (winv_insert samples₀ st.pos start endR st.window
                  sample.Labels metric ⟨sample.TimestampNano, sample.Value⟩
                  hcur hpT hsrc hw (not_le.mp h2) (not_lt.mp h1))
            | none =>
              cases hq : parse sample.Labels with
              | none =>
                rw [show load parse start endR (n + 1) st
                    = load parse start endR n st by
                  simp [load, hp, h1, h2, hlw, hlm, hq]]
                exact ih st hsm hw
              | some metric =>
                rw [show load parse start endR (n + 1) st
                    = load parse start endR n (consume { st with
                        metrics := st.metrics ++ [(sample.Labels, metric)],
                        window := st.window ++ [(sample.Labels,
                          ⟨metric, [⟨sample.TimestampNano, sample.Value⟩]⟩)] }) by
                  simp [load, hp, h1, h2, hlw, hlm, hq]]
                exact ih _ hsm
                  (winv_insert samples₀ st.pos start endR st.window
                    sample.Labels metric ⟨sample.TimestampNano, sample.Value⟩
                    hcur hpT hsrc hw (not_le.mp h2) (not_lt.mp h1))

/-- A successful, fully-loaded `Next()` call preserves the reachability
    invariant when the parameters exclude int64 overflow. -/
theorem next_preserves_invC5 (parse : String → Option Lbls) (fuel : Nat)
    (samples₀ : List Sample) (selRange step start endR : Int)
    (hgp : GoodParams selRange step start endR)
    (hsrc : samples₀.Pairwise fun a b => a.TimestampNano ≤ b.TimestampNano)
    {st st' : IterState Lbls}
    (hinv : InvC5 samples₀ selRange step start endR st)
    (hnext : Next parse fuel st = (true, st', true)) :
    InvC5 samples₀ selRange step start endR st' := by
  obtain ⟨hsm, hsel, hstp, hendf, hpos, hcur1, hcur2, hwin⟩ := hinv
  obtain ⟨hgp1, hgp2, hgp3, hgp4, hgp5⟩ := hgp
  have hstep1 : 1 ≤ st.step := by rw [hstp]; exact hgp1
  have hc_ub : st.current + st.step ≤ i64max := by
    rw [hstp]
    rcases hcur2 with h | h
    · linarith
    · linarith
  have hc_lb : i64min ≤ st.current + st.step := by rw [hstp]; linarith
  have hw1 : wrap64 (st.current + st.step) = st.current + st.step :=
    wrap64_eq_self hc_lb hc_ub
  have hrs : wrap64 (st.current + st.step - st.selRange)
      = st.current + st.step - st.selRange := by
    rw [hstp, hsel]
    exact wrap64_eq_self (by linarith) (by linarith)
  simp only [Next] at hnext
  rw [hw1, hrs] at hnext
  by_cases hce : st.endT < st.current + st.step
  · rw [if_pos hce] at hnext
    exact absurd (congrArg Prod.fst hnext) (by simp)
  · rw [if_neg hce] at hnext
    have hle_c : st.current + st.step ≤ endR := by
      rw [← hendf]
      exact not_lt.mp hce
    set st2 : IterState Lbls := { st with
      current := st.current + st.step,
      window := (popBack (st.current + st.step - st.selRange) st.window).1,
      putCount := st.putCount
        + (popBack (st.current + st.step - st.selRange) st.window).2 } with hst2
    have hst' : (load parse (st.current + st.step - st.selRange)
        (st.current + st.step) fuel st2).1 = st' :=
      congrArg (fun t => t.2.1) hnext
    have hcfg := load_config parse (st.current + st.step - st.selRange)
      (st.current + st.step) fuel st2
    have hc' : st'.current = st.current + st.step := by
      rw [← hst']
      exact hcfg.2.2.2.2.1
    refine ⟨?_, ?_, ?_, ?_, ?_, ?_, ?_, ?_⟩
    · rw [← hst']
      exact hcfg.1.trans hsm
    · rw [← hst']
      exact hcfg.2.1.trans hsel
    · rw [← hst']
      exact hcfg.2.2.1.trans hstp
    · rw [← hst']
      exact hcfg.2.2.2.1.trans hendf
    · rw [← hst']
      have := load_pos_le parse (st.current + st.step - st.selRange)
        (st.current + st.step) fuel st2
        (by rw [show st2.samples = samples₀ from hsm]; exact hpos)
      rwa [show st2.samples = samples₀ from hsm] at this
    · rw [hc', hstp]
      linarith
    · right
      rw [hc']
      exact hle_c
    · have hw2 : WInv samples₀ st2.pos (st.current + st.step - st.selRange)
          (st.current + st.step) st2.window :=
        popBack_winv samples₀ st.pos (st.current - selRange)
          (st.current + st.step - st.selRange) st.current
          (st.current + st.step) st.window hwin (by linarith)
      have hres := load_winv parse (st.current + st.step - st.selRange)
        (st.current + st.step) samples₀ hsrc fuel st2 hsm hw2
      rw [hst', hsel] at hres
      rw [hc']
      exact hres

/-- Every state reachable from construction satisfies the invariant. -/
theorem reach_invC5 (parse : String → Option Lbls) (fuel : Nat)
    (samples₀ : List Sample) (selRange step start endR : Int)
    (hgp : GoodParams selRange step start endR)
    (hsrc : samples₀.Pairwise fun a b => a.TimestampNano ≤ b.TimestampNano)
    (st : IterState Lbls)
    (hr : Reach parse fuel
      (newRangeVectorIterator samples₀ selRange step start endR) st) :
    InvC5 samples₀ selRange step start endR st := by
  induction hr with
  | base =>
    obtain ⟨hgp1, hgp2, hgp3, hgp4, hgp5⟩ := hgp
    have hne : step ≠ 0 := by
      intro h
      rw [h] at hgp1
      norm_num at hgp1
    have hinit : (newRangeVectorIterator samples₀ selRange step start endR
        : IterState Lbls).current = start - step := by
      show wrap64 (start - (if step = 0 then 1 else step)) = start - step
      rw [if_neg hne]
      exact wrap64_eq_self (le_trans hgp3 (by linarith)) (by linarith)
    refine ⟨rfl, rfl, if_neg hne, rfl, Nat.zero_le _, ?_, Or.inl ?_, ?_⟩
    · rw [hinit]
    · rw [hinit]
    · intro fp s hmem
      simp [newRangeVectorIterator] at hmem
  | step hr' hnx ih =>
    exact next_preserves_invC5 parse fuel samples₀ selRange step start endR
      hgp hsrc ih hnx

/-- C5 counterexample: with step `2^62`, selRange `2^62 + 1`, start 0, end
    `2^62` over a non-decreasing source (effective step ≥ 1), the state after
    three successful fully-loaded `Next()` calls still holds the point
    T = `2^62` although `current` has wrapped around to `−2^63`, violating
    `T ≤ rangeEnd`. -/
theorem window_invariant_overflow_cex :
    Reach parseOk 10 iterOv iterOv3 ∧
    (1 : Int) ≤ iterOv.step ∧
    samplesOv.Pairwise (fun a b => a.TimestampNano ≤ b.TimestampNano) ∧
    ¬ (∀ e ∈ iterOv3.window, ∀ p ∈ e.2.Points,
        iterOv3.current - iterOv3.selRange < p.T ∧ p.T ≤ iterOv3.current) := by
  refine ⟨?_, by decide, by decide, by decide⟩
  have h1 : Next parseOk 10 iterOv = (true, iterOv1, true) := by decide
  have h2 : Next parseOk 10 iterOv1 = (true, iterOv2, true) := by decide
  have h3 : Next parseOk 10 iterOv2 = (true, iterOv3, true) := by decide
  exact Reach.step (Reach.step (Reach.step Reach.base h1) h2) h3

/-- C5 amended: for an iterator constructed with step ≥ 1 over a globally
    non-decreasing source, and parameters that keep the int64 arithmetic from
    overflowing (`GoodParams`), after every successful fully-loaded `Next()`
    every point held in every series entry satisfies
    `rangeStart < T ≤ rangeEnd` for the current bounds; and within each
    successful `Next()` eviction (`popBack`) runs before ingestion
    (`load`). -/
theorem window_invariant_amended (Lbls : Type) (parse : String → Option Lbls)
    (fuel : Nat) (samples₀ : List Sample) (selRange step start endR : Int)
    (hgp : GoodParams selRange step start endR)
    (hsrc : samples₀.Pairwise fun a b => a.TimestampNano ≤ b.TimestampNano)
    (st : IterState Lbls)
    (hr : Reach parse fuel
      (newRangeVectorIterator samples₀ selRange step start endR) st) :
    (∀ e ∈ st.window, ∀ p ∈ e.2.Points,
        st.current - st.selRange < p.T ∧ p.T ≤ st.current) ∧
    (∀ stA : IterState Lbls, (Next parse fuel stA).1 = true →
      (Next parse fuel stA).2.1 =
        (load parse (wrap64 (wrap64 (stA.current + stA.step) - stA.selRange))
          (wrap64 (stA.current + stA.step)) fuel
          { stA with
            current := wrap64 (stA.current + stA.step),
            window := (popBack (wrap64 (wrap64 (stA.current + stA.step)
              - stA.selRange)) stA.window).1,
            putCount := stA.putCount
              + (popBack (wrap64 (wrap64 (stA.current + stA.step)
                  - stA.selRange)) stA.window).2 }).1) := by
  constructor
  · intro e he p hp
    obtain ⟨_, hsel, _, _, _, _, _, hwin⟩ :=
      reach_invC5 parse fuel samples₀ selRange step start endR hgp hsrc st hr
    obtain ⟨_, hpts⟩ := hwin e.1 e.2 he
    obtain ⟨hlo, hhi, _⟩ := hpts p hp
    rw [hsel]
    exact ⟨hlo, hhi⟩
  · intro stA htrue
    by_cases h : stA.endT < wrap64 (stA.current + stA.step)
    · rw [show (Next parse fuel stA).1 = false by simp [Next, h]] at htrue
      exact absurd htrue (by simp)
    · simp [Next, h]

/-- Witness for C5 amended at the end-to-end scenario state after the first
    `Next()` call, for the buffered point (T=0, V=1). -/
theorem window_invariant_amended_witness :
    iter9a.current - iter9a.selRange < (Point.mk 0 1).T ∧
      (Point.mk 0 1).T ≤ iter9a.current := by
  have h1 : Next parseOk 10 iter9 = (true, iter9a, true) := by decide
  exact (window_invariant_amended String parseOk 10 samples9 5 5 0 10
    ⟨by decide, by decide, by decide, by decide, by decide⟩ (by decide)
    iter9a (Reach.step Reach.base h1)).1 ("A", ⟨"A", [⟨0, 1⟩]⟩) (by decide)
    ⟨0, 1⟩ (by decide)

/-- A Boolean predicate that holds exactly on the first `n` positions of a
    list counts to `n`. -/
theorem countP_of_prefix_prop {α : Type} (l : List α) (p : α → Bool) :
    ∀ n : Nat, n ≤ l.length →
      (∀ i (h : i < l.length), i < n → p (l.get ⟨i, h⟩)) →
      (∀ i (h : i < l.length), n ≤ i → ¬ p (l.get ⟨i, h⟩)) →
      l.countP p = n := by
  induction l with
  | nil =>
    intro n hn _ _
    simpa using (Nat.le_zero.mp hn).symm
  | cons a l ih =>
    intro n hn h1 h2
    cases n with
    | zero =>
      have hz : l.countP p = 0 := List.countP_eq_zero.mpr (by
        intro b hb
        obtain ⟨⟨j, hj⟩, rfl⟩ := List.mem_iff_get.mp hb
        have := h2 (j + 1) (by simpa using Nat.succ_lt_succ hj) (Nat.zero_le _)
        simpa using this)
      have ha : ¬ p a := by
        have := h2 0 (by simp) (Nat.zero_le _)
        simpa using this
      simp [List.countP_cons, hz, ha]
    | succ m =>
      have ha : p a := by
        have := h1 0 (by simp) (Nat.succ_pos m)
        simpa using this
      have hrec : l.countP p = m := by
        apply ih m (Nat.le_of_succ_le_succ (by simpa using hn))
        · intro i h hi
          have := h1 (i + 1) (by simpa using Nat.succ_lt_succ h)
            (Nat.succ_lt_succ hi)
          simpa using this
        · intro i h hi
          have := h2 (i + 1) (by simpa using Nat.succ_lt_succ h)
            (Nat.succ_le_succ hi)
          simpa using this
      simp [List.countP_cons, hrec, ha]

/-- With a sorted source whose labels all parse, a normally-completed `load`
    leaves the cursor exactly after the samples with `T ≤ rangeEnd`, every
    one of them consumed exactly once. -/
theorem load_count (parse : String → Option Lbls) (start endR : Int)
    (samples₀ : List Sample)
    (hsrc : samples₀.Pairwise fun a b => a.TimestampNano ≤ b.TimestampNano)
    (hparse : ∀ s ∈ samples₀, (parse s.Labels).isSome) :
    ∀ (fuel : Nat) (st : IterState Lbls), st.samples = samples₀ →
      st.pos ≤ samples₀.length →
      (∀ i (h : i < samples₀.length), i < st.pos →
        (samples₀.get ⟨i, h⟩).TimestampNano ≤ endR) →
      (load parse start endR fuel st).2 = true →
      ((load parse start endR fuel st).1.pos
          = samples₀.countP fun s => decide (s.TimestampNano ≤ endR)) ∧
      (∀ i (h : i < samples₀.length), i < (load parse start endR fuel st).1.pos →
        (samples₀.get ⟨i, h⟩).TimestampNano ≤ endR) := by
  intro fuel
  induction fuel with
  | zero =>
    intro st _ _ _ hdone
    simp [load] at hdone
  | succ n ih =>
    intro st hsm hle hpre hdone
    cases hp : peekSample st with
    | none =>
      have hlen : samples₀.length ≤ st.pos := by
        have hnone : st.samples.get? st.pos = none := hp
        rw [hsm] at hnone
        exact List.get?_eq_none.mp hnone
      have hpeq : st.pos = samples₀.length := le_antisymm hle hlen
      rw [show load parse start endR (n + 1) st = (st, true) by simp [load, hp]]
      constructor
      · show st.pos = _
        rw [hpeq]
        symm
        rw [List.countP_eq_length]
        intro b hb
        obtain ⟨⟨j, hj⟩, rfl⟩ := List.mem_iff_get.mp hb
        simpa using hpre j hj (hpeq ▸ hj)
      · intro i h hi
        exact hpre i h hi
    | some sample =>
      have hp' : samples₀.get? st.pos = some sample := by
        have hsome : st.samples.get? st.pos = some sample := hp
        rwa [hsm] at hsome
      have hcur : st.pos < samples₀.length :=
        (List.get?_eq_some.mp hp').choose
      have hpT : samples₀.get ⟨st.pos, hcur⟩ = sample :=
        (List.get?_eq_some.mp hp').choose_spec
      by_cases h1 : endR < sample.TimestampNano
      · rw [show load parse start endR (n + 1) st = (st, true) by
          simp [load, hp, h1]]
        constructor
        · show st.pos = _
          symm
          apply countP_of_prefix_prop samples₀ _ st.pos hle
          · intro i h hi
            simpa using hpre i h hi
          · intro i h hi
            have hge : sample.TimestampNano
                ≤ (samples₀.get ⟨i, h⟩).TimestampNano := by
              rcases Nat.eq_or_lt_of_le hi with heq | hlt
              · rw [show (⟨i, h⟩ : Fin samples₀.length) = ⟨st.pos, hcur⟩ by
                  exact Fin.ext heq.symm, hpT]
              · exact hpT ▸ List.pairwise_iff_get.mp hsrc ⟨st.pos, hcur⟩ ⟨i, h⟩ hlt
            simpa using lt_of_lt_of_le h1 hge
        · intro i h hi
          exact hpre i h hi
      · have hTle : sample.TimestampNano ≤ endR := not_lt.mp h1
        have hpre' : ∀ i (h : i < samples₀.length), i < st.pos + 1 →
            (samples₀.get ⟨i, h⟩).TimestampNano ≤ endR := by
          intro i h hi
          rcases Nat.lt_succ_iff_lt_or_eq.mp hi with hlt | heq
          · exact hpre i h hlt
          · rw [show (⟨i, h⟩ : Fin samples₀.length) = ⟨st.pos, hcur⟩ by
              exact Fin.ext heq, hpT]
            exact hTle
        by_cases h2 : sample.TimestampNano ≤ start
        · rw [show load parse start endR (n + 1) st
              = load parse start endR n (consume st) by
            simp [load, hp, h1, h2]] at hdone ⊢
          exact ih (consume st) hsm hcur hpre' hdone
        · cases hlw : lookupFp st.window sample.Labels with
          | some s0 =>
            rw [show load parse start endR (n + 1) st
                = load parse start endR n (consume { st with
                    window := appendPoint sample.Labels
                      ⟨sample.TimestampNano, sample.Value⟩ st.window }) by
              simp [load, hp, h1, h2, hlw]] at hdone ⊢
            exact ih _ hsm hcur hpre' hdone
          | none =>
            cases hlm : lookupFp st.metrics sample.Labels with
            | some metric =>
              rw [show load parse start endR (n + 1) st
                  = load parse start endR n (consume { st with
                      window := st.window ++ [(sample.Labels,
                        ⟨metric, [⟨sample.TimestampNano, sample.Value⟩]⟩)] }) by
                simp [load, hp, h1, h2, hlw, hlm]] at hdone ⊢
              exact ih _ hsm hcur hpre' hdone
            | none =>
              cases hq : parse sample.Labels with
              | none =>
                have hmem : sample ∈ samples₀ := by
                  rw [← hpT]
                  exact List.get_mem ..
                have hps := hparse sample hmem
                rw [hq] at hps
                simp at hps
              | some metric =>
                rw [show load parse start endR (n + 1) st
                    = load parse start endR n (consume { st with
                        metrics := st.metrics ++ [(sample.Labels, metric)],
                        window := st.window ++ [(sample.Labels,
                          ⟨metric, [⟨sample.TimestampNano, sample.Value⟩]⟩)] }) by
                  simp [load, hp, h1, h2, hlw, hlm, hq]] at hdone ⊢
                exact ih _ hsm hcur hpre' hdone

/-- After every successful fully-loaded `Next()` call (sorted source,
    all labels parseable, overflow-free parameters), the consumed samples are
    exactly those with `T ≤ current`. -/
theorem reach_count (parse : String → Option Lbls) (fuel : Nat)
    (samples₀ : List Sample) (selRange step start endR : Int)
    (hgp : GoodParams selRange step start endR)
    (hsrc : samples₀.Pairwise fun a b => a.TimestampNano ≤ b.TimestampNano)
    (hparse : ∀ s ∈ samples₀, (parse s.Labels).isSome)
    (st : IterState Lbls)
    (hr : Reach parse fuel
      (newRangeVectorIterator samples₀ selRange step start endR) st) :
    st = newRangeVectorIterator samples₀ selRange step start endR ∨
      ((st.pos = samples₀.countP fun s =>
          decide (s.TimestampNano ≤ st.current)) ∧
       (∀ i (h : i < samples₀.length), i < st.pos →
         (samples₀.get ⟨i, h⟩).TimestampNano ≤ st.current)) := by
  induction hr with
  | base => exact Or.inl rfl
  | @step stp st' hr' hnext ih =>
    right
    obtain ⟨hsm, hsel, hstp, hendf, hpos, hcur1, hcur2, hwin⟩ :=
      reach_invC5 parse fuel samples₀ selRange step start endR hgp hsrc stp hr'
    obtain ⟨hgp1, hgp2, hgp3, hgp4, hgp5⟩ := hgp
    have hstep1 : 1 ≤ stp.step := by rw [hstp]; exact hgp1
    have hc_ub : stp.current + stp.step ≤ i64max := by
      rw [hstp]
      rcases hcur2 with h | h
      · linarith
      · linarith
    have hc_lb : i64min ≤ stp.current + stp.step := by rw [hstp]; linarith
    have hw1 : wrap64 (stp.current + stp.step) = stp.current + stp.step :=
      wrap64_eq_self hc_lb hc_ub
    have hrs : wrap64 (stp.current + stp.step - stp.selRange)
        = stp.current + stp.step - stp.selRange := by
      rw [hstp, hsel]
      exact wrap64_eq_self (by linarith) (by linarith)
    simp only [Next] at hnext
    rw [hw1, hrs] at hnext
    by_cases hce : stp.endT < stp.current + stp.step
    · rw [if_pos hce] at hnext
      exact absurd (congrArg Prod.fst hnext) (by simp)
    · rw [if_neg hce] at hnext
      set st2 : IterState Lbls := { stp with
        current := stp.current + stp.step,
        window := (popBack (stp.current + stp.step - stp.selRange) stp.window).1,
        putCount := stp.putCount
          + (popBack (stp.current + stp.step - stp.selRange) stp.window).2 }
        with hst2
      have hst' : (load parse (stp.current + stp.step - stp.selRange)
          (stp.current + stp.step) fuel st2).1 = st' :=
        congrArg (fun t => t.2.1) hnext
      have hdone2 : (load parse (stp.current + stp.step - stp.selRange)
          (stp.current + stp.step) fuel st2).2 = true :=
        congrArg (fun t => t.2.2) hnext
      have hmono : stp.current ≤ stp.current + stp.step := by linarith
      have hpre2 : ∀ i (h : i < samples₀.length), i < stp.pos →
          (samples₀.get ⟨i, h⟩).TimestampNano ≤ stp.current + stp.step := by
        intro i h hi
        rcases ih with hinit | ⟨_, hbound⟩
        · rw [hinit] at hi
          simp [newRangeVectorIterator] at hi
        · exact le_trans (hbound i h hi) hmono
      have hcount := load_count parse (stp.current + stp.step - stp.selRange)
        (stp.current + stp.step) samples₀ hsrc hparse fuel st2 hsm hpos
        hpre2 hdone2
      have hcfg := load_config parse (stp.current + stp.step - stp.selRange)
        (stp.current + stp.step) fuel st2
      have hc' : st'.current = stp.current + stp.step := by
        rw [← hst']
        exact hcfg.2.2.2.2.1
      constructor
      · rw [hc', ← hst']
        exact hcount.1
      · intro i h hi
        rw [hc']
        refine hcount.2 i h ?_
        rw [hst']
        exact hi

/-- Frame facts of a single `Next()` call: the source list is unchanged and
    the cursor never moves backwards, so no sample is ever fetched twice. -/
theorem next_frame (parse : String → Option Lbls) (fuel : Nat)
    (st : IterState Lbls) :
    st.pos ≤ (Next parse fuel st).2.1.pos ∧
    (Next parse fuel st).2.1.samples = st.samples := by
  by_cases h : st.endT < wrap64 (st.current + st.step)
  · have he : (Next parse fuel st).2.1
        = { st with current := wrap64 (st.current + st.step) } := by
      simp [Next, h]
    rw [he]
    exact ⟨le_refl _, rfl⟩
  · have he : (Next parse fuel st).2.1
        = (load parse (wrap64 (wrap64 (st.current + st.step) - st.selRange))
            (wrap64 (st.current + st.step)) fuel
            { st with
              current := wrap64 (st.current + st.step),
              window := (popBack (wrap64 (wrap64 (st.current + st.step)
                - st.selRange)) st.window).1,
              putCount := st.putCount
                + (popBack (wrap64 (wrap64 (st.current + st.step)
                    - st.selRange)) st.window).2 }).1 := by
      simp [Next, h]
    rw [he]
    have hcfg := load_config parse
      (wrap64 (wrap64 (st.current + st.step) - st.selRange))
      (wrap64 (st.current + st.step)) fuel
      { st with
        current := wrap64 (st.current + st.step),
        window := (popBack (wrap64 (wrap64 (st.current + st.step)
          - st.selRange)) st.window).1,
        putCount := st.putCount
          + (popBack (wrap64 (wrap64 (st.current + st.step)
              - st.selRange)) st.window).2 }
    exact ⟨hcfg.2.2.2.2.2.2, hcfg.1⟩

/-- C2 counterexample: on the source `samplesLate` (one sample at T = 11,
    beyond end = 10) a complete run — Next() until the first false — invokes
    the consuming next() zero times although one sample is present in the
    source, so next() is not invoked exactly once per sample present. -/
theorem next_count_not_exactly_once :
    (nextTrace parseOk 10 4 iterLate).1 = [true, true, true, false] ∧
    (nextTrace parseOk 10 4 iterLate).2.pos = 0 ∧
    iterLate.samples.length = 1 := by
  exact ⟨by decide, by decide, by decide⟩

/-- C2 amended: the consuming next() is invoked at most once per sample —
    consumption advances a cursor monotonically over an unchanged source, so
    overlapping windows never re-fetch — and, for a non-decreasing source
    whose labels all parse and overflow-free parameters with step ≥ 1, after
    every successful fully-loaded Next() the consumed prefix is exactly the
    set of samples with `T ≤ current` (each consumed exactly once); samples
    beyond the final window position are never consumed. -/
theorem consume_once_amended (Lbls : Type) (parse : String → Option Lbls)
    (fuel : Nat) (samples₀ : List Sample) (selRange step start endR : Int)
    (hgp : GoodParams selRange step start endR)
    (hsrc : samples₀.Pairwise fun a b => a.TimestampNano ≤ b.TimestampNano)
    (hparse : ∀ s ∈ samples₀, (parse s.Labels).isSome) :
    (∀ st : IterState Lbls, st.pos ≤ (Next parse fuel st).2.1.pos ∧
        (Next parse fuel st).2.1.samples = st.samples) ∧
    (∀ st : IterState Lbls,
      Reach parse fuel
        (newRangeVectorIterator samples₀ selRange step start endR) st →
      st = newRangeVectorIterator samples₀ selRange step start endR ∨
        ((st.pos = samples₀.countP fun s =>
            decide (s.TimestampNano ≤ st.current)) ∧
         (∀ i (h : i < samples₀.length), i < st.pos →
           (samples₀.get ⟨i, h⟩).TimestampNano ≤ st.current))) :=
  ⟨fun st => next_frame parse fuel st,
   fun st hr => reach_count parse fuel samples₀ selRange step start endR
     hgp hsrc hparse st hr⟩

/-- Witness for C2 amended at the end-to-end scenario: after the first
    Next() the consumed prefix is exactly the samples with T ≤ 0. -/
theorem consume_once_amended_witness :
    iter9a.pos ≤ (Next parseOk 10 iter9a).2.1.pos ∧
    iter9a.pos = samples9.countP fun s =>
      decide (s.TimestampNano ≤ iter9a.current) := by
  have h1 : Next parseOk 10 iter9 = (true, iter9a, true) := by decide
  have h := consume_once_amended String parseOk 10 samples9 5 5 0 10
    ⟨by decide, by decide, by decide, by decide, by decide⟩ (by decide)
    (by decide)
  refine ⟨(h.1 iter9a).1, ?_⟩
  rcases h.2 iter9a (Reach.step Reach.base h1) with heq | ⟨hc, _⟩
  · exact absurd heq (by decide)
  · exact hc
end Logql
